import Mathlib

/-!
Verification of the managed-block patching core of `git-branchless`'s
`init` command (`src/commands/init.rs`), shallowly embedded over `List Char`.

Strings are modelled as `List Char` (the byte/char sequence of the Rust
`String`).  Rust's `str::lines` iterator is modelled by `rustLines`:
split on `'\n'` with terminator semantics, stripping one trailing `'\r'`
from each newline-terminated piece.
-/

namespace Branchless

/-- The characters of a Lean string, used to transcribe Rust literals. -/
def chars (s : String) : List Char := s.data

/-- `const UPDATE_MARKER_START`. -/
def UPDATE_MARKER_START : List Char := chars "## START BRANCHLESS CONFIG"

/-- `const UPDATE_MARKER_END`. -/
def UPDATE_MARKER_END : List Char := chars "## END BRANCHLESS CONFIG"

/-- `const SHEBANG`. -/
def SHEBANG : List Char := chars "#!/bin/sh"

/-- Split on `'\n'`, keeping every piece (like Rust `str::split('\n')`);
the result is always nonempty. -/
def splitOnNl : List Char → List (List Char)
  | [] => [[]]
  | c :: s =>
    match splitOnNl s with
    | [] => [[]]
    | p :: ps => if c = '\n' then [] :: p :: ps else (c :: p) :: ps

/-- Strip one trailing carriage return, as Rust `lines()` does on each
newline-terminated line. -/
def stripCr (l : List Char) : List Char :=
  if l.getLast? = some '\r' then l.dropLast else l

/-- Rust `str::lines`: pieces split at `'\n'`; every piece that was
terminated by `'\n'` has one trailing `'\r'` stripped; an unterminated
final piece is kept verbatim; no empty final piece for a trailing
newline. -/
def rustLines (s : List Char) : List (List Char) :=
  let ps := splitOnNl s
  ps.dropLast.map stripCr ++
    (match ps.getLast? with
     | some [] => []
     | some l => [l]
     | none => [])

/-- `fn append_hook`: the rendered managed block
(start marker, newline, block contents verbatim, end marker, newline). -/
def renderBlock (block : List Char) : List Char :=
  UPDATE_MARKER_START ++ '\n' :: (block ++ (UPDATE_MARKER_END ++ ['\n']))

/-- The loop state of `fn update_between_lines`:
accumulated output, `found_marker`, `is_ignoring_lines`. -/
structure ScanResult where
  out : List Char
  found : Bool
  ign : Bool
  deriving Repr, DecidableEq

/-- The line loop of `fn update_between_lines`, as a recursion over the
line list that returns the emitted text together with the final flags.
Branch order follows the source: start marker, end marker, ignoring,
copy. -/
def scanLines (block : List Char) : List (List Char) → Bool → Bool → ScanResult
  | [], found, ign => ⟨[], found, ign⟩
  | l :: ls, found, ign =>
    if l = UPDATE_MARKER_START then
      let r := scanLines block ls true true
      ⟨renderBlock block ++ r.out, r.found, r.ign⟩
    else if l = UPDATE_MARKER_END then
      scanLines block ls found false
    else if ign then
      scanLines block ls found ign
    else
      let r := scanLines block ls found ign
      ⟨l ++ '\n' :: r.out, r.found, r.ign⟩

/-- `fn update_between_lines(lines, updated_lines)`.  After the scan:
unterminated region (warn, return as built); no marker found (append a
fresh block); otherwise return the rebuilt document. -/
def update_between_lines (lines updated_lines : List Char) : List Char :=
  let r := scanLines updated_lines (rustLines lines) false false
  if r.ign then r.out
  else if r.found then r.out
  else r.out ++ renderBlock updated_lines

/-- Whether `update_between_lines` hits the `warn!("Unterminated
branchless config comment in hook")` path. -/
def update_between_lines_warns (lines updated_lines : List Char) : Bool :=
  (scanLines updated_lines (rustLines lines) false false).ign

/-- Concatenate lines, terminating each with a newline. -/
def unlines (ls : List (List Char)) : List Char :=
  ls.foldr (fun l acc => l ++ '\n' :: acc) []

/-- The header line of `fn section_string` / `fn section_regex`. -/
def sectionHeader : List Char := chars "# git-branchless section start\n"

/-- The footer line of `fn section_string` / `fn section_regex`. -/
def sectionFooter : List Char := chars "# git-branchless section end\n"

/-- `fn section_string(contents)`. -/
def section_string (contents : List Char) : List Char :=
  sectionHeader ++ contents ++ sectionFooter

/-- The `[include]` body rendered by `fn update_config_text` for a given
relative config path. -/
def includeBody (config_path_relative : List Char) : List Char :=
  chars "[include]\n\tpath = \"" ++ config_path_relative ++
    chars "\"\n\tpath = \"~/.gitconfig\"\n"

/-- Split `s` at the first occurrence of `pat`: if
`s = pre ++ pat ++ post` with `pre` shortest, return `(pre, post)`. -/
def findSub (pat : List Char) : List Char → Option (List Char × List Char)
  | [] => if pat.isPrefixOf ([] : List Char) then some ([], []) else none
  | c :: s =>
    if pat.isPrefixOf (c :: s) then some ([], (c :: s).drop pat.length)
    else (findSub pat s).map fun pr => (c :: pr.1, pr.2)

/-- Leftmost match of the regex `(?s)hdr(.*?)ftr` (as built by
`fn section_regex`): the first position where `hdr` occurs followed
somewhere by `ftr`, with a shortest (lazy) body.  Returns
`(before, body, after)` with the match being `hdr ++ body ++ ftr`. -/
def regexFind (hdr ftr : List Char) : List Char → Option (List Char × List Char × List Char)
  | [] => none
  | c :: s =>
    if hdr.isPrefixOf (c :: s) then
      match findSub ftr ((c :: s).drop hdr.length) with
      | some (b, post) => some ([], b, post)
      | none => (regexFind hdr ftr s).map fun r => (c :: r.1, r.2)
    else (regexFind hdr ftr s).map fun r => (c :: r.1, r.2)

/-- `fn update_config_text(old_config, config_path_relative)`: replace
the first section-regex match with the freshly rendered section, or
prepend the section when there is no match.  (`Regex::replace`
replaces only the first match; `$`-expansion in the replacement is not
modelled, which is faithful whenever the path contains no `$`.) -/
def update_config_text (old_config config_path_relative : List Char) : List Char :=
  let git_branchless_section := section_string (includeBody config_path_relative)
  match regexFind sectionHeader sectionFooter old_config with
  | some (pre, _, post) => pre ++ git_branchless_section ++ post
  | none => git_branchless_section ++ old_config

/-- `fn update_hook_contents`, restricted to its pure content
computation.  `isMulti` selects the `Hook::MultiHook` arm; `existing`
is the result of reading the hook file (`none` = `NotFound`). -/
def update_hook_contents (isMulti : Bool) (existing : Option (List Char))
    (hook_contents : List Char) : List Char :=
  if isMulti then SHEBANG ++ '\n' :: hook_contents
  else
    match existing with
    | some lines => update_between_lines lines hook_contents
    | none =>
        SHEBANG ++ '\n' ::
          (UPDATE_MARKER_START ++ '\n' ::
            (hook_contents ++ '\n' :: (UPDATE_MARKER_END ++ ['\n'])))

/-- `const ALL_HOOKS`: hook type → shell fragment body. -/
def ALL_HOOKS : List (List Char × List Char) :=
  [ (chars "post-commit", chars "\ngit branchless hook-post-commit \"$@\"\n"),
    (chars "post-merge", chars "\ngit branchless hook-post-merge \"$@\"\n"),
    (chars "post-rewrite", chars "\ngit branchless hook-post-rewrite \"$@\"\n"),
    (chars "post-checkout", chars "\ngit branchless hook-post-checkout \"$@\"\n"),
    (chars "pre-auto-gc", chars "\ngit branchless hook-pre-auto-gc \"$@\"\n"),
    (chars "reference-transaction", chars
      "\n# Avoid canceling the reference transaction in the case that `branchless` fails\n# for whatever reason.\ngit branchless hook-reference-transaction \"$@\" || (\necho 'branchless: Failed to process reference transaction!'\necho 'branchless: Some events (e.g. branch updates) may have been lost.'\necho 'branchless: This is a bug. Please report it.'\n)\n") ]

/-- `const ALL_ALIASES`: alias name → subcommand. -/
def ALL_ALIASES : List (List Char × List Char) :=
  [ (chars "amend", chars "amend"),
    (chars "co", chars "checkout"),
    (chars "hide", chars "hide"),
    (chars "move", chars "move"),
    (chars "next", chars "next"),
    (chars "prev", chars "prev"),
    (chars "restack", chars "restack"),
    (chars "sl", chars "smartlog"),
    (chars "smartlog", chars "smartlog"),
    (chars "undo", chars "undo"),
    (chars "unhide", chars "unhide") ]

/-- A Git version, as parsed by the (external) `GitVersion` parser.
Only its presence or absence matters for the claims below. -/
structure GitVersion where
  major : Nat
  minor : Nat
  patch : Nat
  deriving Repr, DecidableEq

/-- The observable installation state mutated by `fn init`:
configuration key/value assignments (aliases are `alias.*` config
keys), written hook files, and whether man-pages were written.
File-system reads are supplied as an association list `fs`. -/
structure InstallState where
  configs : List (List Char × List Char)
  hooks : List (List Char × List Char)
  manPagesWritten : Bool
  deriving Repr, DecidableEq

/-- Association-list lookup for the modelled file system. -/
def lookupFs (fs : List (List Char × List Char)) (k : List Char) : Option (List Char) :=
  match fs with
  | [] => none
  | (k', v) :: fs' => if k' = k then some v else lookupFs fs' k

/-- `Config::set`: record a key/value assignment. -/
def setConfig (s : InstallState) (k v : List Char) : InstallState :=
  { s with configs := s.configs ++ [(k, v)] }

/-- `fn install_hooks`: for each `(hook_type, hook_script)` in
`ALL_HOOKS`, write the content produced by `update_hook_contents`
against the existing file (if any). -/
def install_hooks_model (isMulti : Bool) (fs : List (List Char × List Char))
    (s : InstallState) : InstallState :=
  ALL_HOOKS.foldl
    (fun s tb =>
      { s with hooks :=
          s.hooks ++ [(tb.1, update_hook_contents isMulti (lookupFs fs tb.1) tb.2)] })
    s

/-- `fn install_alias` for one alias, with
`should_use_wrapped_command_alias()` as a parameter. -/
def install_alias_model (useWrapped : Bool) (s : InstallState)
    (from_ to_ : List Char) : InstallState :=
  setConfig s (chars "alias." ++ from_)
    ((if useWrapped then chars "branchless-" else chars "branchless ") ++ to_)

/-- `fn install_aliases`: first set every alias from `ALL_ALIASES`, then
run the Git version query.  `parsed` is the combined outcome of
decoding the subprocess stdout as UTF-8 and parsing it as a version
(`none` = decode or parse failure, which makes the function return
`Err` after the aliases have been installed).  The returned `Bool` is
success. -/
def install_aliases_model (useWrapped : Bool) (parsed : Option GitVersion)
    (s : InstallState) : InstallState × Bool :=
  let s := ALL_ALIASES.foldl (fun s ft => install_alias_model useWrapped s ft.1 ft.2) s
  match parsed with
  | none => (s, false)
  | some _ => (s, true)

/-- `fn init`, restricted to the steps relevant to hook/alias
installation: `install_hooks` runs, then `install_aliases`; a failure
there aborts the remaining steps (`install_man_pages`), leaving the
state already built.  (`create_isolated_config` / `set_configs` write
to disk and prompt interactively; they precede both steps and are
collapsed into the initial state `s`.) -/
def init_model (isMulti useWrapped manPagesFeature : Bool)
    (fs : List (List Char × List Char)) (parsed : Option GitVersion)
    (s : InstallState) : InstallState × Bool :=
  let s1 := install_hooks_model isMulti fs s
  let r := install_aliases_model useWrapped parsed s1
  if r.2 then ({ r.1 with manPagesWritten := r.1.manPagesWritten || manPagesFeature }, true)
  else (r.1, false)

/-- No line of the block equals either marker (decidable side
condition used by the algebraic theorems). -/
def linesAvoidMarkers (B : List Char) : Bool :=
  (rustLines B).all fun l =>
    !(l == UPDATE_MARKER_START) && !(l == UPDATE_MARKER_END)

/-- The block is empty or ends with a newline. -/
def nlTerminatedOrEmpty (B : List Char) : Bool :=
  B.isEmpty || (B.getLast? == some '\n')

/-- No line of the document still ends in a carriage return after
`rustLines` splitting (i.e. no line ends in `"\r\r\n"` or in a final
unterminated `"\r"`). -/
def noCrLineEnds (D : List Char) : Bool :=
  (rustLines D).all fun l => !(l.getLast? == some '\r')

/-- A text that is a concatenation of newline-terminated,
newline-free lines (equivalently: empty, or ending in `'\n'`). -/
inductive NlTerm : List Char → Prop
  | nil : NlTerm []
  | cons (l : List Char) (h : '\n' ∉ l) (rest : List Char) :
      NlTerm rest → NlTerm (l ++ '\n' :: rest)

/-! ### Basic facts about the marker literals -/

theorem start_ne_end : UPDATE_MARKER_START ≠ UPDATE_MARKER_END := by decide

theorem nl_not_mem_start : '\n' ∉ UPDATE_MARKER_START := by decide

theorem nl_not_mem_end : '\n' ∉ UPDATE_MARKER_END := by decide

theorem start_getLast : UPDATE_MARKER_START.getLast? ≠ some '\r' := by decide

theorem end_getLast : UPDATE_MARKER_END.getLast? ≠ some '\r' := by decide

/-! ### `splitOnNl` and `rustLines` -/

theorem splitOnNl_ne_nil (s : List Char) : splitOnNl s ≠ [] := by
  cases s with
  | nil => simp [splitOnNl]
  | cons c s =>
    simp only [splitOnNl]
    cases splitOnNl s with
    | nil => simp
    | cons p ps =>
      by_cases h : c = '\n' <;> simp [h]

theorem rustLines_nil : rustLines [] = [] := by decide

theorem stripCr_of_getLast (l : List Char) (h : l.getLast? ≠ some '\r') :
    stripCr l = l := by
  simp [stripCr, h]

theorem splitOnNl_append_cons (x rest : List Char) (hx : '\n' ∉ x) :
    splitOnNl (x ++ '\n' :: rest) = x :: splitOnNl rest := by
  induction x with
  | nil =>
    simp only [List.nil_append, splitOnNl]
    have h := splitOnNl_ne_nil rest
    cases hr : splitOnNl rest with
    | nil => exact absurd hr h
    | cons p ps => simp
  | cons c x ih =>
    have hc : c ≠ '\n' := fun h => hx (h ▸ List.mem_cons_self c x)
    have hx' : '\n' ∉ x := fun h => hx (List.mem_cons_of_mem c h)
    simp only [List.cons_append, splitOnNl, List.append_eq]
    rw [ih hx']
    simp [hc]

theorem rustLines_append_cons (x rest : List Char) (hx : '\n' ∉ x) :
    rustLines (x ++ '\n' :: rest) = stripCr x :: rustLines rest := by
  have h := splitOnNl_append_cons x rest hx
  have hne := splitOnNl_ne_nil rest
  simp only [rustLines, h]
  cases hr : splitOnNl rest with
  | nil => exact absurd hr hne
  | cons p ps =>
    simp [List.dropLast_cons_of_ne_nil]

theorem NlTerm.append {a b : List Char} (ha : NlTerm a) (hb : NlTerm b) :
    NlTerm (a ++ b) := by
  induction ha with
  | nil => simpa using hb
  | cons l h rest _ ih =>
    rw [List.append_assoc, List.cons_append]
    exact NlTerm.cons l h _ ih

theorem rustLines_append_of_nlTerm {a : List Char} (ha : NlTerm a)
    (b : List Char) : rustLines (a ++ b) = rustLines a ++ rustLines b := by
  induction ha with
  | nil => simp [rustLines_nil]
  | cons l h rest _ ih =>
    rw [List.append_assoc, List.cons_append,
      rustLines_append_cons l (rest ++ b) h, rustLines_append_cons l rest h, ih]
    simp

theorem NlTerm.inv {b : List Char} (h : NlTerm b) :
    b = [] ∨ ∃ l rest, '\n' ∉ l ∧ NlTerm rest ∧ b = l ++ '\n' :: rest := by
  cases h with
  | nil => exact Or.inl rfl
  | cons l hl rest hrest => exact Or.inr ⟨l, rest, hl, hrest, rfl⟩

theorem nlTerm_of_getLast {b : List Char}
    (h : b = [] ∨ b.getLast? = some '\n') : NlTerm b := by
  induction b with
  | nil => exact NlTerm.nil
  | cons c b ih =>
    rcases h with h | h
    · exact absurd h (List.cons_ne_nil c b)
    · cases hb : b with
      | nil =>
        subst hb
        simp only [List.getLast?_singleton, Option.some.injEq] at h
        subst h
        exact NlTerm.cons [] (by simp) [] NlTerm.nil
      | cons d b' =>
        rw [hb] at h ih
        rw [List.getLast?_cons_cons] at h
        have hterm := ih (Or.inr h)
        by_cases hc : c = '\n'
        · subst hc
          exact NlTerm.cons [] (by simp) (d :: b') hterm
        · rcases hterm.inv with habs | ⟨l, rest, hl, hrest, heq⟩
          · simp at habs
          · rw [heq]
            refine NlTerm.cons (c :: l) ?_ rest hrest
            intro hm
            rcases List.mem_cons.mp hm with h | h
            · exact hc h.symm
            · exact hl h

theorem nl_not_mem_splitOnNl (s : List Char) :
    ∀ p ∈ splitOnNl s, '\n' ∉ p := by
  induction s with
  | nil => simp [splitOnNl]
  | cons c s ih =>
    simp only [splitOnNl]
    cases hr : splitOnNl s with
    | nil => simp
    | cons p ps =>
      rw [hr] at ih
      by_cases hc : c = '\n'
      · simp only [hc, if_pos rfl]
        intro q hq
        rcases List.mem_cons.mp hq with h | h
        · subst h; simp
        · exact ih q h
      · simp only [if_neg hc]
        intro q hq
        rcases List.mem_cons.mp hq with h | h
        · subst h
          intro hmem
          rcases List.mem_cons.mp hmem with h | h
          · exact hc h.symm
          · exact ih p (List.mem_cons_self p ps) h
        · exact ih q (List.mem_cons_of_mem p h)

theorem nl_not_mem_rustLines (s : List Char) :
    ∀ l ∈ rustLines s, '\n' ∉ l := by
  intro l hl
  have hp := nl_not_mem_splitOnNl s
  simp only [rustLines, List.mem_append, List.mem_map] at hl
  rcases hl with ⟨p, hp', rfl⟩ | hl
  · have hmem : p ∈ splitOnNl s := List.dropLast_subset _ hp'
    intro hmem'
    exact hp p hmem (by
      by_cases h : p.getLast? = some '\r'
      · exact List.dropLast_subset _ (by simpa [stripCr, h] using hmem')
      · simpa [stripCr, h] using hmem')
  · rcases hg : (splitOnNl s).getLast? with _ | q
    · simp [hg] at hl
    · have hmem : q ∈ splitOnNl s := by
        rcases List.mem_getLast?_eq_getLast (show q ∈ (splitOnNl s).getLast? from hg)
          with ⟨hne, rfl⟩
        exact List.getLast_mem hne
      cases q with
      | nil => simp [hg] at hl
      | cons a q' =>
        simp only [hg] at hl
        rcases List.mem_singleton.mp hl with rfl
        exact hp _ hmem

/-! ### Structural lemmas about the line scan -/

theorem scanLines_append (B : List Char) (X Y : List (List Char)) :
    ∀ f i, scanLines B (X ++ Y) f i =
      ⟨(scanLines B X f i).out ++
          (scanLines B Y (scanLines B X f i).found (scanLines B X f i).ign).out,
       (scanLines B Y (scanLines B X f i).found (scanLines B X f i).ign).found,
       (scanLines B Y (scanLines B X f i).found (scanLines B X f i).ign).ign⟩ := by
  induction X with
  | nil => intro f i; simp [scanLines]
  | cons l X ih =>
    intro f i
    by_cases h1 : l = UPDATE_MARKER_START
    · simp only [List.cons_append, scanLines, List.append_eq, if_pos h1]
      rw [ih]
      simp [List.append_assoc]
    · by_cases h2 : l = UPDATE_MARKER_END
      · simp only [List.cons_append, scanLines, List.append_eq, if_neg h1, if_pos h2]
        rw [ih]
      · by_cases h3 : i
        · simp only [List.cons_append, scanLines, List.append_eq, if_neg h1, if_neg h2,
            if_pos h3]
          rw [ih]
        · simp only [List.cons_append, scanLines, List.append_eq, if_neg h1, if_neg h2,
            if_neg h3]
          rw [ih]
          simp [List.append_assoc]

/-- Scanning lines that contain no start marker while outside the
region copies every line that is not the end marker and drops the
end-marker lines. -/
theorem scanLines_noStart (B : List Char) (X : List (List Char))
    (hX : UPDATE_MARKER_START ∉ X) :
    ∀ f, scanLines B X f false =
      ⟨unlines (X.filter fun l => l ≠ UPDATE_MARKER_END), f, false⟩ := by
  induction X with
  | nil => intro f; simp [scanLines, unlines]
  | cons l X ih =>
    intro f
    have h1 : l ≠ UPDATE_MARKER_START := fun h => hX (h ▸ List.mem_cons_self l X)
    have hX' : UPDATE_MARKER_START ∉ X := fun h => hX (List.mem_cons_of_mem l h)
    by_cases h2 : l = UPDATE_MARKER_END
    · simp only [scanLines, if_neg h1, if_pos h2, ih hX']
      simp [h2]
    · simp only [scanLines, if_neg h1, if_neg h2, if_neg (by simp : ¬(false = true)),
        ih hX']
      simp [List.filter_cons, h2, unlines]

/-- Scanning lines that contain neither marker while inside the region
drops everything and keeps the flags. -/
theorem scanLines_skipAll (B : List Char) (X : List (List Char))
    (hS : UPDATE_MARKER_START ∉ X) (hE : UPDATE_MARKER_END ∉ X) :
    ∀ f, scanLines B X f true = ⟨[], f, true⟩ := by
  induction X with
  | nil => intro f; simp [scanLines]
  | cons l X ih =>
    intro f
    have h1 : l ≠ UPDATE_MARKER_START := fun h => hS (h ▸ List.mem_cons_self l X)
    have h2 : l ≠ UPDATE_MARKER_END := fun h => hE (h ▸ List.mem_cons_self l X)
    have hS' : UPDATE_MARKER_START ∉ X := fun h => hS (List.mem_cons_of_mem l h)
    have hE' : UPDATE_MARKER_END ∉ X := fun h => hE (List.mem_cons_of_mem l h)
    simp only [scanLines, if_neg h1, if_neg h2, if_pos rfl]
    exact ih hS' hE' f

/-- A scan that ends inside the region, having started outside it, saw
a start marker. -/
theorem scanLines_ign_imp_mem (B : List Char) (X : List (List Char)) :
    ∀ f, (scanLines B X f false).ign = true → UPDATE_MARKER_START ∈ X := by
  induction X with
  | nil => intro f h; simp [scanLines] at h
  | cons l X ih =>
    intro f h
    by_cases h1 : l = UPDATE_MARKER_START
    · exact h1 ▸ List.mem_cons_self l X
    · by_cases h2 : l = UPDATE_MARKER_END
      · simp only [scanLines, if_neg h1, if_pos h2] at h
        exact List.mem_cons_of_mem l (ih f h)
      · simp only [scanLines, if_neg h1, if_neg h2, if_neg (by simp : ¬(false = true))] at h
        exact List.mem_cons_of_mem l (ih f h)

/-- A scan that reports `found`, having started with `found = false`,
saw a start marker. -/
theorem scanLines_found_imp_mem (B : List Char) (X : List (List Char)) :
    ∀ i, (scanLines B X false i).found = true → UPDATE_MARKER_START ∈ X := by
  induction X with
  | nil => intro i h; simp [scanLines] at h
  | cons l X ih =>
    intro i h
    by_cases h1 : l = UPDATE_MARKER_START
    · exact h1 ▸ List.mem_cons_self l X
    · by_cases h2 : l = UPDATE_MARKER_END
      · simp only [scanLines, if_neg h1, if_pos h2] at h
        exact List.mem_cons_of_mem l (ih false h)
      · by_cases h3 : i
        · simp only [scanLines, if_neg h1, if_neg h2, if_pos h3] at h
          exact List.mem_cons_of_mem l (ih i h)
        · simp only [scanLines, if_neg h1, if_neg h2, if_neg h3] at h
          exact List.mem_cons_of_mem l (ih i h)

/-! ### Re-splitting the scan output -/

theorem nlTerm_renderBlock {B : List Char} (hB : NlTerm B) :
    NlTerm (renderBlock B) :=
  NlTerm.cons UPDATE_MARKER_START nl_not_mem_start _
    (hB.append (NlTerm.cons UPDATE_MARKER_END nl_not_mem_end [] NlTerm.nil))

theorem rustLines_renderBlock {B : List Char} (hB : NlTerm B) (rest : List Char) :
    rustLines (renderBlock B ++ rest) =
      UPDATE_MARKER_START ::
        (rustLines B ++ (UPDATE_MARKER_END :: rustLines rest)) := by
  have h1 : renderBlock B ++ rest =
      UPDATE_MARKER_START ++ '\n' :: (B ++ (UPDATE_MARKER_END ++ '\n' :: rest)) := by
    simp [renderBlock, List.append_assoc]
  rw [h1, rustLines_append_cons _ _ nl_not_mem_start,
    stripCr_of_getLast _ start_getLast, rustLines_append_of_nlTerm hB,
    rustLines_append_cons _ _ nl_not_mem_end, stripCr_of_getLast _ end_getLast]

theorem nlTerm_scan_out (B : List Char) (hB : NlTerm B) :
    ∀ L : List (List Char), (∀ l ∈ L, '\n' ∉ l) →
      ∀ f i, NlTerm (scanLines B L f i).out := by
  intro L
  induction L with
  | nil => intro _ f i; exact NlTerm.nil
  | cons l L ih =>
    intro hnl f i
    have hnl' : ∀ x ∈ L, '\n' ∉ x := fun x hx => hnl x (List.mem_cons_of_mem l hx)
    by_cases h1 : l = UPDATE_MARKER_START
    · simp only [scanLines, if_pos h1]
      exact (nlTerm_renderBlock hB).append (ih hnl' true true)
    · by_cases h2 : l = UPDATE_MARKER_END
      · simp only [scanLines, if_neg h1, if_pos h2]
        exact ih hnl' f false
      · by_cases h3 : i
        · simp only [scanLines, if_neg h1, if_neg h2, if_pos h3]
          exact ih hnl' f i
        · simp only [scanLines, if_neg h1, if_neg h2, if_neg h3]
          exact NlTerm.cons l (hnl l (List.mem_cons_self l L)) _ (ih hnl' f i)

/-- Re-scanning the output of a scan reproduces the output verbatim,
ends outside the region, and reports `found` whenever the first scan
emitted a block.  Requires: no line of the block equals a marker, the
block is a newline-terminated text, and the scanned lines are
newline-free and do not end in a carriage return. -/
theorem scanLines_rescan (B : List Char)
    (hB1 : ∀ l ∈ rustLines B,
      l ≠ UPDATE_MARKER_START ∧ l ≠ UPDATE_MARKER_END)
    (hBnl : NlTerm B) :
    ∀ L : List (List Char), (∀ l ∈ L, '\n' ∉ l) →
      (∀ l ∈ L, l.getLast? ≠ some '\r') →
      ∀ f i g, ∃ g',
        scanLines B (rustLines (scanLines B L f i).out) g false
            = ⟨(scanLines B L f i).out, g', false⟩
          ∧ (g = true → g' = true)
          ∧ (UPDATE_MARKER_START ∈ L → g' = true) := by
  have hS : UPDATE_MARKER_START ∉ rustLines B := fun hm => (hB1 _ hm).1 rfl
  have hE : UPDATE_MARKER_END ∉ rustLines B := fun hm => (hB1 _ hm).2 rfl
  intro L
  induction L with
  | nil =>
    intro _ _ f i g
    refine ⟨g, ?_, fun h => h, by simp⟩
    simp [scanLines, rustLines_nil]
  | cons l L ih =>
    intro hnl hcr f i g
    have hnl' : ∀ x ∈ L, '\n' ∉ x := fun x hx => hnl x (List.mem_cons_of_mem l hx)
    have hcr' : ∀ x ∈ L, x.getLast? ≠ some '\r' :=
      fun x hx => hcr x (List.mem_cons_of_mem l hx)
    by_cases h1 : l = UPDATE_MARKER_START
    · obtain ⟨g', heq, himp, _⟩ := ih hnl' hcr' true true true
      have hg' : g' = true := himp rfl
      subst hg'
      refine ⟨true, ?_, fun _ => rfl, fun _ => rfl⟩
      simp only [scanLines, if_pos h1]
      rw [rustLines_renderBlock hBnl]
      simp only [scanLines, if_pos rfl]
      rw [scanLines_append, scanLines_skipAll B (rustLines B) hS hE]
      simp only [scanLines, if_neg (Ne.symm start_ne_end), if_pos rfl]
      rw [heq]
      simp
    · by_cases h2 : l = UPDATE_MARKER_END
      · obtain ⟨g', heq, himp, hmem⟩ := ih hnl' hcr' f false g
        refine ⟨g', ?_, himp, fun hm => ?_⟩
        · simp only [scanLines, if_neg h1, if_pos h2]
          exact heq
        · rcases List.mem_cons.mp hm with h | h
          · exact absurd h.symm (h2 ▸ Ne.symm start_ne_end)
          · exact hmem h
      · by_cases h3 : i
        · obtain ⟨g', heq, himp, hmem⟩ := ih hnl' hcr' f i g
          refine ⟨g', ?_, himp, fun hm => ?_⟩
          · simp only [scanLines, if_neg h1, if_neg h2, if_pos h3]
            exact heq
          · rcases List.mem_cons.mp hm with h | h
            · exact absurd h.symm h1
            · exact hmem h
        · obtain ⟨g', heq, himp, hmem⟩ := ih hnl' hcr' f i g
          refine ⟨g', ?_, himp, fun hm => ?_⟩
          · simp only [scanLines, if_neg h1, if_neg h2, if_neg h3]
            rw [rustLines_append_cons _ _ (hnl l (List.mem_cons_self l L)),
              stripCr_of_getLast _ (hcr l (List.mem_cons_self l L))]
            simp only [scanLines, if_neg h1, if_neg h2,
              if_neg (by simp : ¬(false = true))]
            rw [heq]
          · rcases List.mem_cons.mp hm with h | h
            · exact absurd h.symm h1
            · exact hmem h

/-! ### Decoding the decidable side conditions -/

theorem linesAvoidMarkers_spec {B : List Char} (h : linesAvoidMarkers B = true) :
    ∀ l ∈ rustLines B, l ≠ UPDATE_MARKER_START ∧ l ≠ UPDATE_MARKER_END := by
  simpa [linesAvoidMarkers, List.all_eq_true] using h

theorem nlTerm_of_flag {B : List Char} (h : nlTerminatedOrEmpty B = true) :
    NlTerm B := by
  refine nlTerm_of_getLast ?_
  simpa [nlTerminatedOrEmpty, List.isEmpty_iff] using h

theorem noCrLineEnds_spec {D : List Char} (h : noCrLineEnds D = true) :
    ∀ l ∈ rustLines D, l.getLast? ≠ some '\r' := by
  simpa [noCrLineEnds, List.all_eq_true] using h

/-! ### Claim C1: idempotence of the block patcher -/

/-- **C1** (amended).  `update_between_lines` is idempotent for every
document `D` none of whose lines still ends in a carriage return, and
every block `B` that is empty or newline-terminated and none of whose
lines equals a marker line.  (As stated for *every* `D` and `B` the
claim fails, see the counterexample: a block without a trailing
newline glues onto the end marker, and re-application then treats the
region as unterminated.) -/
theorem update_between_lines_idempotent (D B : List Char)
    (h1 : linesAvoidMarkers B = true) (h2 : nlTerminatedOrEmpty B = true)
    (h3 : noCrLineEnds D = true) :
    update_between_lines (update_between_lines D B) B
      = update_between_lines D B := by
  have hB1 := linesAvoidMarkers_spec h1
  have hBnl := nlTerm_of_flag h2
  have hcr := noCrLineEnds_spec h3
  have hnl := nl_not_mem_rustLines D
  have hS : UPDATE_MARKER_START ∉ rustLines B := fun hm => (hB1 _ hm).1 rfl
  have hE : UPDATE_MARKER_END ∉ rustLines B := fun hm => (hB1 _ hm).2 rfl
  by_cases hign : (scanLines B (rustLines D) false false).ign = true
  · have hmemS : UPDATE_MARKER_START ∈ rustLines D :=
      scanLines_ign_imp_mem B (rustLines D) false hign
    obtain ⟨g', heq, _, hmem⟩ :=
      scanLines_rescan B hB1 hBnl (rustLines D) hnl hcr false false false
    have hg' : g' = true := hmem hmemS
    subst hg'
    have hres : update_between_lines D B
        = (scanLines B (rustLines D) false false).out := by
      simp [update_between_lines, hign]
    rw [hres]
    simp [update_between_lines, heq]
  · by_cases hfound : (scanLines B (rustLines D) false false).found = true
    · have hmemS : UPDATE_MARKER_START ∈ rustLines D :=
        scanLines_found_imp_mem B (rustLines D) false hfound
      obtain ⟨g', heq, _, hmem⟩ :=
        scanLines_rescan B hB1 hBnl (rustLines D) hnl hcr false false false
      have hg' : g' = true := hmem hmemS
      subst hg'
      have hres : update_between_lines D B
          = (scanLines B (rustLines D) false false).out := by
        simp [update_between_lines, hign, hfound]
      rw [hres]
      simp [update_between_lines, heq]
    · have hres : update_between_lines D B
          = (scanLines B (rustLines D) false false).out ++ renderBlock B := by
        simp [update_between_lines, hign, hfound]
      obtain ⟨g', heq, _, _⟩ :=
        scanLines_rescan B hB1 hBnl (rustLines D) hnl hcr false false false
      have hout_nl : NlTerm (scanLines B (rustLines D) false false).out :=
        nlTerm_scan_out B hBnl (rustLines D) hnl false false
      have hsplit : rustLines
            ((scanLines B (rustLines D) false false).out ++ renderBlock B)
          = rustLines (scanLines B (rustLines D) false false).out ++
              (UPDATE_MARKER_START ::
                (rustLines B ++ (UPDATE_MARKER_END :: ([] : List (List Char))))) := by
        rw [rustLines_append_of_nlTerm hout_nl]
        have h0 : rustLines (renderBlock B)
            = UPDATE_MARKER_START ::
                (rustLines B ++ (UPDATE_MARKER_END :: rustLines [])) := by
          have h1 := rustLines_renderBlock hBnl []
          simpa using h1
        rw [h0, rustLines_nil]
      rw [hres]
      simp only [update_between_lines]
      rw [hsplit, scanLines_append, heq]
      simp only [scanLines, if_pos rfl]
      rw [scanLines_append, scanLines_skipAll B (rustLines B) hS hE]
      simp only [scanLines, if_neg (Ne.symm start_ne_end), if_pos rfl]
      simp

/-- Witness for C1: the repository's own `test_update_between_lines`
input satisfies the side conditions, and idempotence holds there. -/
theorem update_between_lines_idempotent_witness :
    linesAvoidMarkers (chars "contents 2\ncontents 3\n") = true
    ∧ nlTerminatedOrEmpty (chars "contents 2\ncontents 3\n") = true
    ∧ noCrLineEnds (chars "hello, world\n## START BRANCHLESS CONFIG\ncontents 1\n## END BRANCHLESS CONFIG\ngoodbye, world\n") = true
    ∧ update_between_lines (update_between_lines
        (chars "hello, world\n## START BRANCHLESS CONFIG\ncontents 1\n## END BRANCHLESS CONFIG\ngoodbye, world\n")
        (chars "contents 2\ncontents 3\n")) (chars "contents 2\ncontents 3\n")
      = update_between_lines
        (chars "hello, world\n## START BRANCHLESS CONFIG\ncontents 1\n## END BRANCHLESS CONFIG\ngoodbye, world\n")
        (chars "contents 2\ncontents 3\n") :=
  ⟨by decide, by decide, by decide,
    update_between_lines_idempotent _ _ (by decide) (by decide) (by decide)⟩

/-- Counterexample to C1 as stated (for *every* document and block):
with a block `"x"` lacking a trailing newline, the end marker glues
onto the block line, so a second application treats the region as
unterminated and drops the trailing `"z"` line. -/
theorem update_between_lines_not_idempotent :
    update_between_lines (update_between_lines
        (chars "## START BRANCHLESS CONFIG\n## END BRANCHLESS CONFIG\nz\n")
        (chars "x")) (chars "x")
      ≠ update_between_lines
        (chars "## START BRANCHLESS CONFIG\n## END BRANCHLESS CONFIG\nz\n")
        (chars "x") := by decide

/-! ### Claim C2: number of managed regions in the output -/

theorem scanLines_found_mono (B : List Char) :
    ∀ L : List (List Char), ∀ i, (scanLines B L true i).found = true := by
  intro L
  induction L with
  | nil => intro i; simp [scanLines]
  | cons l L ih =>
    intro i
    by_cases h1 : l = UPDATE_MARKER_START
    · simp only [scanLines, if_pos h1]
      exact ih true
    · by_cases h2 : l = UPDATE_MARKER_END
      · simp only [scanLines, if_neg h1, if_pos h2]
        exact ih false
      · by_cases h3 : i
        · simp only [scanLines, if_neg h1, if_neg h2, if_pos h3]
          exact ih i
        · simp only [scanLines, if_neg h1, if_neg h2, if_neg h3]
          exact ih i

theorem scanLines_mem_imp_found (B : List Char) :
    ∀ L : List (List Char), UPDATE_MARKER_START ∈ L →
      ∀ f i, (scanLines B L f i).found = true := by
  intro L
  induction L with
  | nil => intro h; simp at h
  | cons l L ih =>
    intro hm f i
    by_cases h1 : l = UPDATE_MARKER_START
    · simp only [scanLines, if_pos h1]
      exact scanLines_found_mono B L true
    · have hm' : UPDATE_MARKER_START ∈ L := by
        rcases List.mem_cons.mp hm with h | h
        · exact absurd h.symm h1
        · exact h
      by_cases h2 : l = UPDATE_MARKER_END
      · simp only [scanLines, if_neg h1, if_pos h2]
        exact ih hm' f false
      · by_cases h3 : i
        · simp only [scanLines, if_neg h1, if_neg h2, if_pos h3]
          exact ih hm' f i
        · simp only [scanLines, if_neg h1, if_neg h2, if_neg h3]
          exact ih hm' f i

/-- The scan output contains exactly one start-marker line per
start-marker line of the input. -/
theorem scanLines_count_start (B : List Char)
    (hB1 : ∀ l ∈ rustLines B,
      l ≠ UPDATE_MARKER_START ∧ l ≠ UPDATE_MARKER_END)
    (hBnl : NlTerm B) :
    ∀ L : List (List Char), (∀ l ∈ L, '\n' ∉ l) →
      (∀ l ∈ L, l.getLast? ≠ some '\r') →
      ∀ f i, (rustLines (scanLines B L f i).out).count UPDATE_MARKER_START
        = L.count UPDATE_MARKER_START := by
  have hS : UPDATE_MARKER_START ∉ rustLines B := fun hm => (hB1 _ hm).1 rfl
  intro L
  induction L with
  | nil => intro _ _ f i; simp [scanLines, rustLines_nil]
  | cons l L ih =>
    intro hnl hcr f i
    have hnl' : ∀ x ∈ L, '\n' ∉ x := fun x hx => hnl x (List.mem_cons_of_mem l hx)
    have hcr' : ∀ x ∈ L, x.getLast? ≠ some '\r' :=
      fun x hx => hcr x (List.mem_cons_of_mem l hx)
    by_cases h1 : l = UPDATE_MARKER_START
    · simp only [scanLines, if_pos h1]
      rw [rustLines_renderBlock hBnl]
      rw [List.count_cons, List.count_append, List.count_cons]
      rw [ih hnl' hcr' true true]
      have hz : (rustLines B).count UPDATE_MARKER_START = 0 :=
        List.count_eq_zero.mpr hS
      simp [h1, hz, Ne.symm start_ne_end, List.count_cons]
    · by_cases h2 : l = UPDATE_MARKER_END
      · simp only [scanLines, if_neg h1, if_pos h2]
        rw [ih hnl' hcr' f false]
        simp [List.count_cons, h2, Ne.symm start_ne_end]
      · by_cases h3 : i
        · simp only [scanLines, if_neg h1, if_neg h2, if_pos h3]
          rw [ih hnl' hcr' f i]
          simp [List.count_cons, h1]
        · simp only [scanLines, if_neg h1, if_neg h2, if_neg h3]
          rw [rustLines_append_cons _ _ (hnl l (List.mem_cons_self l L)),
            stripCr_of_getLast _ (hcr l (List.mem_cons_self l L))]
          rw [List.count_cons, ih hnl' hcr' f i]
          simp [List.count_cons, h1]

/-- **C2** (amended).  Provided the input document contains at most
one start-marker line (and `B`, `D` satisfy the C1 side conditions),
the output of `update_between_lines` contains exactly one start-marker
line.  (As stated — for *every* input — the claim fails: the scan
emits one block per start-marker line, so a document with two
well-formed regions yields two, see the counterexample.) -/
theorem update_between_lines_single_region (D B : List Char)
    (h1 : linesAvoidMarkers B = true) (h2 : nlTerminatedOrEmpty B = true)
    (h3 : noCrLineEnds D = true)
    (h4 : (rustLines D).count UPDATE_MARKER_START ≤ 1) :
    (rustLines (update_between_lines D B)).count UPDATE_MARKER_START = 1 := by
  have hB1 := linesAvoidMarkers_spec h1
  have hBnl := nlTerm_of_flag h2
  have hcr := noCrLineEnds_spec h3
  have hnl := nl_not_mem_rustLines D
  have hS : UPDATE_MARKER_START ∉ rustLines B := fun hm => (hB1 _ hm).1 rfl
  have hcount := scanLines_count_start B hB1 hBnl (rustLines D) hnl hcr false false
  by_cases hign : (scanLines B (rustLines D) false false).ign = true
  · have hmemS : UPDATE_MARKER_START ∈ rustLines D :=
      scanLines_ign_imp_mem B (rustLines D) false hign
    have hpos : 0 < (rustLines D).count UPDATE_MARKER_START :=
      List.count_pos_iff.mpr hmemS
    have hres : update_between_lines D B
        = (scanLines B (rustLines D) false false).out := by
      simp [update_between_lines, hign]
    rw [hres, hcount]
    omega
  · by_cases hfound : (scanLines B (rustLines D) false false).found = true
    · have hmemS : UPDATE_MARKER_START ∈ rustLines D :=
        scanLines_found_imp_mem B (rustLines D) false hfound
      have hpos : 0 < (rustLines D).count UPDATE_MARKER_START :=
        List.count_pos_iff.mpr hmemS
      have hres : update_between_lines D B
          = (scanLines B (rustLines D) false false).out := by
        simp [update_between_lines, hign, hfound]
      rw [hres, hcount]
      omega
    · have hnotmem : UPDATE_MARKER_START ∉ rustLines D := by
        intro hm
        exact hfound (scanLines_mem_imp_found B (rustLines D) hm false false)
      have hzero : (rustLines D).count UPDATE_MARKER_START = 0 :=
        List.count_eq_zero.mpr hnotmem
      have hres : update_between_lines D B
          = (scanLines B (rustLines D) false false).out ++ renderBlock B := by
        simp [update_between_lines, hign, hfound]
      have hout_nl : NlTerm (scanLines B (rustLines D) false false).out :=
        nlTerm_scan_out B hBnl (rustLines D) hnl false false
      rw [hres, rustLines_append_of_nlTerm hout_nl]
      have h0 : rustLines (renderBlock B)
          = UPDATE_MARKER_START ::
              (rustLines B ++ (UPDATE_MARKER_END :: rustLines [])) := by
        have h1' := rustLines_renderBlock hBnl []
        simpa using h1'
      rw [h0, rustLines_nil, List.count_append, hcount, hzero]
      have hz : (rustLines B).count UPDATE_MARKER_START = 0 :=
        List.count_eq_zero.mpr hS
      simp [List.count_cons, hz, Ne.symm start_ne_end]

/-- Witness for C2: a document with one managed region keeps exactly
one start marker. -/
theorem update_between_lines_single_region_witness :
    linesAvoidMarkers (chars "c\n") = true
    ∧ nlTerminatedOrEmpty (chars "c\n") = true
    ∧ noCrLineEnds (chars "a\n## START BRANCHLESS CONFIG\nold\n## END BRANCHLESS CONFIG\nb\n") = true
    ∧ (rustLines (chars "a\n## START BRANCHLESS CONFIG\nold\n## END BRANCHLESS CONFIG\nb\n")).count UPDATE_MARKER_START ≤ 1
    ∧ (rustLines (update_between_lines
        (chars "a\n## START BRANCHLESS CONFIG\nold\n## END BRANCHLESS CONFIG\nb\n")
        (chars "c\n"))).count UPDATE_MARKER_START = 1 :=
  ⟨by decide, by decide, by decide, by decide,
    update_between_lines_single_region _ _ (by decide) (by decide) (by decide)
      (by decide)⟩

/-- Counterexample to C2 as stated: an input with two well-formed
marker-delimited regions yields an output with two start-marker lines,
not one. -/
theorem update_between_lines_two_regions :
    (rustLines (update_between_lines
      (chars "## START BRANCHLESS CONFIG\na\n## END BRANCHLESS CONFIG\nm\n## START BRANCHLESS CONFIG\nb\n## END BRANCHLESS CONFIG\n")
      (chars "c\n"))).count UPDATE_MARKER_START = 2 := by decide

/-! ### Claims C3, C4, C10: frame conditions of a single application -/

theorem scanLines_cons_start (B : List Char) (ls : List (List Char)) (f i : Bool) :
    scanLines B (UPDATE_MARKER_START :: ls) f i
      = ⟨renderBlock B ++ (scanLines B ls true true).out,
         (scanLines B ls true true).found, (scanLines B ls true true).ign⟩ := by
  simp [scanLines]

theorem scanLines_cons_end (B : List Char) (ls : List (List Char)) (f i : Bool) :
    scanLines B (UPDATE_MARKER_END :: ls) f i = scanLines B ls f false := by
  simp [scanLines, Ne.symm start_ne_end]

/-- Scanning a well-formed decomposition
`pre ++ [start] ++ mid ++ [end] ++ post`: the lines around the region
are copied (except stray end-marker lines, which are dropped), the
region interior is replaced by the rendered block. -/
theorem scanLines_decomp (B : List Char) (pre mid post : List (List Char))
    (hpre : UPDATE_MARKER_START ∉ pre)
    (hmidS : UPDATE_MARKER_START ∉ mid) (hmidE : UPDATE_MARKER_END ∉ mid)
    (hpost : UPDATE_MARKER_START ∉ post) :
    scanLines B (pre ++ UPDATE_MARKER_START :: (mid ++ UPDATE_MARKER_END :: post))
        false false
      = ⟨unlines (pre.filter fun l => l ≠ UPDATE_MARKER_END) ++
          (renderBlock B ++
            unlines (post.filter fun l => l ≠ UPDATE_MARKER_END)),
         true, false⟩ := by
  have h1 : scanLines B (mid ++ UPDATE_MARKER_END :: post) true true
      = ⟨unlines (post.filter fun l => l ≠ UPDATE_MARKER_END), true, false⟩ := by
    rw [scanLines_append, scanLines_skipAll B mid hmidS hmidE]
    dsimp only
    rw [scanLines_cons_end, scanLines_noStart B post hpost]
    simp
  have h2 : scanLines B
      (UPDATE_MARKER_START :: (mid ++ UPDATE_MARKER_END :: post)) false false
      = ⟨renderBlock B ++
          unlines (post.filter fun l => l ≠ UPDATE_MARKER_END), true, false⟩ := by
    rw [scanLines_cons_start, h1]
  rw [scanLines_append, scanLines_noStart B pre hpre]
  dsimp only
  rw [h2]

/-- **C3** (amended).  For a well-formed document — lines decomposing
as `pre ++ [start] ++ mid ++ [end] ++ post` with no start marker in
`pre`, `mid` or `post` and no end marker in `mid` — the output is the
outside lines in original order with the region interior replaced by
the rendered block.  Each preserved line is emitted as a line
(CR-stripped by the line iterator and newline-terminated), and outside
lines equal to the end marker are dropped, so preservation is
line-wise rather than byte-identical: the claim as stated (byte-identical
surroundings, including stray end-marker lines and CRLF endings) fails,
see the counterexample. -/
theorem update_between_lines_frame (D B : List Char)
    (pre mid post : List (List Char))
    (hD : rustLines D
      = pre ++ UPDATE_MARKER_START :: (mid ++ UPDATE_MARKER_END :: post))
    (hpre : UPDATE_MARKER_START ∉ pre)
    (hmidS : UPDATE_MARKER_START ∉ mid) (hmidE : UPDATE_MARKER_END ∉ mid)
    (hpost : UPDATE_MARKER_START ∉ post) :
    update_between_lines D B
      = unlines (pre.filter fun l => l ≠ UPDATE_MARKER_END) ++
          (renderBlock B ++
            unlines (post.filter fun l => l ≠ UPDATE_MARKER_END)) := by
  simp only [update_between_lines]
  rw [hD, scanLines_decomp B pre mid post hpre hmidS hmidE hpost]
  simp

/-- Witness for C3: document with a stray end-marker line after the
region; everything outside the region except that line is kept. -/
theorem update_between_lines_frame_witness :
    rustLines (chars "a\n## START BRANCHLESS CONFIG\nold\n## END BRANCHLESS CONFIG\n## END BRANCHLESS CONFIG\nb\n")
      = [chars "a"] ++ UPDATE_MARKER_START ::
          ([chars "old"] ++ UPDATE_MARKER_END :: [UPDATE_MARKER_END, chars "b"])
    ∧ update_between_lines
        (chars "a\n## START BRANCHLESS CONFIG\nold\n## END BRANCHLESS CONFIG\n## END BRANCHLESS CONFIG\nb\n")
        (chars "c\n")
      = unlines ([chars "a"].filter fun l => l ≠ UPDATE_MARKER_END) ++
          (renderBlock (chars "c\n") ++
            unlines ([UPDATE_MARKER_END, chars "b"].filter
              fun l => l ≠ UPDATE_MARKER_END)) :=
  ⟨by decide,
    update_between_lines_frame
      (chars "a\n## START BRANCHLESS CONFIG\nold\n## END BRANCHLESS CONFIG\n## END BRANCHLESS CONFIG\nb\n")
      (chars "c\n")
      [chars "a"] [chars "old"] [UPDATE_MARKER_END, chars "b"]
      (by decide) (by decide) (by decide) (by decide) (by decide)⟩

/-- Counterexample to C3 as stated: in a well-formed document whose
lines after the matching end marker are two further end-marker lines
and `"z"`, those outside bytes are *not* preserved — the output does
not end with them (the stray end-marker lines are deleted). -/
theorem update_between_lines_frame_fails :
    ¬ (chars "## END BRANCHLESS CONFIG\n## END BRANCHLESS CONFIG\nz\n"
        <:+ update_between_lines
          (chars "a\n## START BRANCHLESS CONFIG\nx\n## END BRANCHLESS CONFIG\n## END BRANCHLESS CONFIG\n## END BRANCHLESS CONFIG\nz\n")
          (chars "c\n")) := by decide

/-- **C4** (confirmed).  For a document whose last start marker is
never followed by an end marker, `update_between_lines` takes the
warning path, and the output is whatever the scan produced for the
lines before that start marker followed by the rendered block: the
lines after the unmatched start marker do not influence the output,
and no extra block is appended. -/
theorem update_between_lines_unterminated (D B : List Char)
    (pre suf : List (List Char))
    (hD : rustLines D = pre ++ UPDATE_MARKER_START :: suf)
    (hsufS : UPDATE_MARKER_START ∉ suf) (hsufE : UPDATE_MARKER_END ∉ suf) :
    update_between_lines_warns D B = true
    ∧ update_between_lines D B
        = (scanLines B pre false false).out ++ renderBlock B := by
  have hscan : scanLines B (rustLines D) false false
      = ⟨(scanLines B pre false false).out ++ renderBlock B, true, true⟩ := by
    rw [hD, scanLines_append, scanLines_cons_start,
      scanLines_skipAll B suf hsufS hsufE]
    simp
  constructor
  · simp [update_between_lines_warns, hscan]
  · simp [update_between_lines, hscan]

/-- Witness for C4: a document with content after an unmatched start
marker loses that content; the output is the copied prefix plus the
rendered block, and the warning fires. -/
theorem update_between_lines_unterminated_witness :
    rustLines (chars "keep\n## START BRANCHLESS CONFIG\nlost 1\nlost 2\n")
      = [chars "keep"] ++ UPDATE_MARKER_START :: [chars "lost 1", chars "lost 2"]
    ∧ update_between_lines_warns
        (chars "keep\n## START BRANCHLESS CONFIG\nlost 1\nlost 2\n")
        (chars "c\n") = true
    ∧ update_between_lines
        (chars "keep\n## START BRANCHLESS CONFIG\nlost 1\nlost 2\n")
        (chars "c\n")
      = (scanLines (chars "c\n") [chars "keep"] false false).out ++
          renderBlock (chars "c\n") :=
  ⟨by decide,
    (update_between_lines_unterminated
      (chars "keep\n## START BRANCHLESS CONFIG\nlost 1\nlost 2\n") (chars "c\n")
      [chars "keep"] [chars "lost 1", chars "lost 2"]
      (by decide) (by decide) (by decide)).1,
    (update_between_lines_unterminated
      (chars "keep\n## START BRANCHLESS CONFIG\nlost 1\nlost 2\n") (chars "c\n")
      [chars "keep"] [chars "lost 1", chars "lost 2"]
      (by decide) (by decide) (by decide)).2⟩

/-- **C10** (confirmed).  For a document with no start-marker line,
every line is kept except lines equal to the end marker (which are
dropped — the end-marker branch runs regardless of the region flag and
never copies the line), and a fresh block is appended. -/
theorem update_between_lines_stray_end (D B : List Char)
    (h : UPDATE_MARKER_START ∉ rustLines D) :
    update_between_lines D B
      = unlines ((rustLines D).filter fun l => l ≠ UPDATE_MARKER_END) ++
          renderBlock B := by
  simp [update_between_lines, scanLines_noStart B (rustLines D) h]

/-- Witness for C10: a stray end-marker line (never preceded by a start
marker) is deleted, the other lines are kept, and a block is appended. -/
theorem update_between_lines_stray_end_witness :
    UPDATE_MARKER_START ∉ rustLines (chars "a\n## END BRANCHLESS CONFIG\nb\n")
    ∧ update_between_lines (chars "a\n## END BRANCHLESS CONFIG\nb\n")
        (chars "c\n")
      = unlines ((rustLines (chars "a\n## END BRANCHLESS CONFIG\nb\n")).filter
          fun l => l ≠ UPDATE_MARKER_END) ++ renderBlock (chars "c\n") :=
  ⟨by decide, update_between_lines_stray_end _ _ (by decide)⟩

/-! ### Claim C6: create-on-missing -/

/-- **C6** (confirmed).  Applying a block to a missing regular hook
file produces exactly the interpreter-directive line followed by the
rendered managed block whose contents are the block plus a trailing
newline — i.e. directive line, start marker line, block, end marker
line, each newline-terminated, and nothing else. -/
theorem update_hook_contents_create (hc : List Char) :
    update_hook_contents false none hc
      = (SHEBANG ++ ['\n']) ++ renderBlock (hc ++ ['\n']) := by
  simp [update_hook_contents, renderBlock, List.append_assoc]

/-! ### Claim C7: which install paths go through the block patcher -/

/-- **C7** (amended).  For every hook in the hook table, installing
over an *existing regular* hook file goes through
`update_between_lines`, so for a well-formed existing file the content
outside the managed region is carried into the written output.  (As
stated — for both resolved hook modes — the claim fails: the
`MultiHook` (fragment) arm ignores the existing file content entirely
and overwrites it with directive plus body, see the counterexample.) -/
theorem regular_hook_install_preserves (t b existing : List Char)
    (_hmem : (t, b) ∈ ALL_HOOKS)
    (pre mid post : List (List Char))
    (hD : rustLines existing
      = pre ++ UPDATE_MARKER_START :: (mid ++ UPDATE_MARKER_END :: post))
    (hpre : UPDATE_MARKER_START ∉ pre)
    (hmidS : UPDATE_MARKER_START ∉ mid) (hmidE : UPDATE_MARKER_END ∉ mid)
    (hpost : UPDATE_MARKER_START ∉ post) :
    update_hook_contents false (some existing) b
      = update_between_lines existing b
    ∧ update_hook_contents false (some existing) b
      = unlines (pre.filter fun l => l ≠ UPDATE_MARKER_END) ++
          (renderBlock b ++
            unlines (post.filter fun l => l ≠ UPDATE_MARKER_END)) := by
  refine ⟨rfl, ?_⟩
  simp only [update_hook_contents, update_between_lines]
  rw [hD, scanLines_decomp b pre mid post hpre hmidS hmidE hpost]
  simp

/-- Witness for C7: installing the `post-commit` hook over an existing
well-formed hook file keeps the surrounding lines. -/
theorem regular_hook_install_preserves_witness :
    (chars "post-commit", chars "\ngit branchless hook-post-commit \"$@\"\n")
      ∈ ALL_HOOKS
    ∧ rustLines (chars "prev\n## START BRANCHLESS CONFIG\nold\n## END BRANCHLESS CONFIG\nnext\n")
      = [chars "prev"] ++ UPDATE_MARKER_START ::
          ([chars "old"] ++ UPDATE_MARKER_END :: [chars "next"])
    ∧ update_hook_contents false
        (some (chars "prev\n## START BRANCHLESS CONFIG\nold\n## END BRANCHLESS CONFIG\nnext\n"))
        (chars "\ngit branchless hook-post-commit \"$@\"\n")
      = unlines ([chars "prev"].filter fun l => l ≠ UPDATE_MARKER_END) ++
          (renderBlock (chars "\ngit branchless hook-post-commit \"$@\"\n") ++
            unlines ([chars "next"].filter fun l => l ≠ UPDATE_MARKER_END)) :=
  ⟨by decide, by decide,
    (regular_hook_install_preserves
      (chars "post-commit") (chars "\ngit branchless hook-post-commit \"$@\"\n")
      (chars "prev\n## START BRANCHLESS CONFIG\nold\n## END BRANCHLESS CONFIG\nnext\n")
      (by decide)
      [chars "prev"] [chars "old"] [chars "next"]
      (by decide) (by decide) (by decide) (by decide) (by decide)).2⟩

/-- Counterexample to C7 as stated: in fragment (`MultiHook`) mode the
written content is *not* the result of patching the existing file with
`update_between_lines`; the existing content is discarded. -/
theorem multi_hook_overwrites :
    update_hook_contents true (some (chars "user content\n")) (chars "x\n")
      ≠ update_between_lines (chars "user content\n") (chars "x\n") := by decide

/-! ### Claim C8: section insertion location -/

/-- **C8** (confirmed).  When the whole text has no span matching the
section template, `update_config_text` prepends the freshly rendered
section (header, include body naming the path, footer) and leaves
every original byte of the text following it unchanged. -/
theorem update_config_text_prepend (T p : List Char)
    (h : regexFind sectionHeader sectionFooter T = none) :
    update_config_text T p = section_string (includeBody p) ++ T := by
  simp [update_config_text, h]

/-- Witness for C8: the repository's own `test_config_text_update`
input has no section span, and the section is prepended to it. -/
theorem update_config_text_prepend_witness :
    regexFind sectionHeader sectionFooter
        (chars "[blahblah]\n\tkey = \"value\"\n") = none
    ∧ update_config_text (chars "[blahblah]\n\tkey = \"value\"\n")
        (chars "branchless/config")
      = section_string (includeBody (chars "branchless/config")) ++
          chars "[blahblah]\n\tkey = \"value\"\n" :=
  ⟨by decide, update_config_text_prepend _ _ (by decide)⟩

/-! ### Claim C9: scope of a decode/parse failure in the version gate -/

theorem hooks_foldl_spec (m : Bool) (fs : List (List Char × List Char)) :
    ∀ (l : List (List Char × List Char)) (s : InstallState),
      l.foldl
        (fun s tb =>
          { s with hooks :=
              s.hooks ++ [(tb.1, update_hook_contents m (lookupFs fs tb.1) tb.2)] })
        s
      = { s with hooks :=
            s.hooks ++
              l.map (fun tb =>
                (tb.1, update_hook_contents m (lookupFs fs tb.1) tb.2)) } := by
  intro l
  induction l with
  | nil => intro s; simp
  | cons tb l ih =>
    intro s
    rw [List.foldl_cons, ih]
    simp

theorem alias_foldl_spec (w : Bool) :
    ∀ (l : List (List Char × List Char)) (s : InstallState),
      l.foldl (fun s ft => install_alias_model w s ft.1 ft.2) s
      = { s with configs :=
            s.configs ++
              l.map (fun ft =>
                (chars "alias." ++ ft.1,
                 (if w then chars "branchless-" else chars "branchless ") ++
                   ft.2)) } := by
  intro l
  induction l with
  | nil => intro s; simp
  | cons ft l ih =>
    intro s
    rw [List.foldl_cons, ih]
    simp [install_alias_model, setConfig]

/-- **C9** (confirmed).  When the version subprocess output cannot be
decoded/parsed (`parsed = none`), `init` fails (`false`), but every
hook from `ALL_HOOKS` has already been written and every alias from
`ALL_ALIASES` has already been set: the decode failure is fatal only
to the steps after the version gate and leaves hook and alias
installation in place. -/
theorem init_decode_failure_keeps_installs
    (m w mp : Bool) (fs : List (List Char × List Char)) (s : InstallState) :
    (init_model m w mp fs none s).2 = false
    ∧ (∀ tb ∈ ALL_HOOKS,
        (tb.1, update_hook_contents m (lookupFs fs tb.1) tb.2)
          ∈ (init_model m w mp fs none s).1.hooks)
    ∧ (∀ ft ∈ ALL_ALIASES,
        (chars "alias." ++ ft.1,
         (if w then chars "branchless-" else chars "branchless ") ++ ft.2)
          ∈ (init_model m w mp fs none s).1.configs) := by
  have hmodel : init_model m w mp fs none s
      = ({ configs := s.configs ++
            ALL_ALIASES.map (fun ft =>
              (chars "alias." ++ ft.1,
               (if w then chars "branchless-" else chars "branchless ") ++ ft.2)),
           hooks := s.hooks ++
            ALL_HOOKS.map (fun tb =>
              (tb.1, update_hook_contents m (lookupFs fs tb.1) tb.2)),
           manPagesWritten := s.manPagesWritten }, false) := by
    simp only [init_model, install_hooks_model, install_aliases_model]
    rw [hooks_foldl_spec m fs ALL_HOOKS s, alias_foldl_spec w ALL_ALIASES]
    simp
  refine ⟨by rw [hmodel], fun tb htb => ?_, fun ft hft => ?_⟩
  · rw [hmodel]
    exact List.mem_append_right _ (List.mem_map_of_mem _ htb)
  · rw [hmodel]
    exact List.mem_append_right _ (List.mem_map_of_mem _ hft)

/-! ### Claim C5: lemmas about first-occurrence search -/

theorem findSub_self (pat v : List Char) : findSub pat (pat ++ v) = some ([], v) := by
  have hpre : pat.isPrefixOf (pat ++ v) = true := by
    rw [ List.isPrefixOf_iff_prefix]
    exact List.prefix_append pat v
  have hdrop : (pat ++ v).drop pat.length = v := List.drop_left pat v
  cases hpv : pat ++ v with
  | nil =>
    rcases List.append_eq_nil.mp hpv with ⟨rfl, rfl⟩
    simp [findSub]
  | cons c s =>
    rw [hpv] at hpre hdrop
    simp [findSub, hpre, hdrop]

theorem findSub_append_free (h : Char) (pt : List Char) (u v : List Char)
    (hu : ∀ c ∈ u, c ≠ h) :
    findSub (h :: pt) (u ++ v)
      = (findSub (h :: pt) v).map fun pr => (u ++ pr.1, pr.2) := by
  induction u with
  | nil =>
    cases hf : findSub (h :: pt) v <;> simp [hf]
  | cons c u ih =>
    have hc : c ≠ h := hu c (List.mem_cons_self c u)
    have hu' : ∀ x ∈ u, x ≠ h := fun x hx => hu x (List.mem_cons_of_mem c hx)
    have hbeq : (h == c) = false := beq_eq_false_iff_ne.mpr (Ne.symm hc)
    have hnp : ((h :: pt).isPrefixOf (c :: (u ++ v))) = false := by
      simp [List.isPrefixOf, hbeq]
    simp only [List.cons_append, findSub, List.append_eq, hnp, Bool.false_eq_true,
      if_false]
    rw [ih hu']
    cases hf : findSub (h :: pt) v <;> simp [hf]

theorem findSub_sound (pat : List Char) :
    ∀ s a b, findSub pat s = some (a, b) → s = a ++ (pat ++ b) := by
  intro s
  induction s with
  | nil =>
    intro a b h
    rw [findSub] at h
    by_cases hp : pat.isPrefixOf ([] : List Char) = true
    · rw [if_pos hp] at h
      obtain ⟨rfl, rfl⟩ : a = [] ∧ b = [] := by
        simpa using h.symm
      have : pat <+: ([] : List Char) := ( List.isPrefixOf_iff_prefix).mp hp
      have : pat = [] := List.prefix_nil.mp this
      simp [this]
    · rw [if_neg hp] at h
      simp at h
  | cons c s ih =>
    intro a b h
    rw [findSub] at h
    by_cases hp : pat.isPrefixOf (c :: s) = true
    · rw [if_pos hp] at h
      have hpre : pat <+: (c :: s) := ( List.isPrefixOf_iff_prefix).mp hp
      obtain ⟨t, hts⟩ := hpre
      obtain ⟨rfl, rfl⟩ : a = [] ∧ b = (c :: s).drop pat.length := by
        simpa using h.symm
      rw [← hts, List.drop_left]
      simp [hts.symm]
    · rw [if_neg hp] at h
      cases hf : findSub pat s with
      | none => rw [hf] at h; simp at h
      | some pr =>
        rw [hf] at h
        simp only [Option.map_some', Option.some.injEq] at h
        have ha : c :: pr.1 = a := congrArg Prod.fst h
        have hb : pr.2 = b := congrArg Prod.snd h
        subst ha hb
        have := ih pr.1 pr.2 (by simp [hf])
        simp [this]

theorem findSub_isSome (pat : List Char) :
    ∀ a b, (findSub pat (a ++ (pat ++ b))).isSome = true := by
  intro a
  induction a with
  | nil =>
    intro b
    simpa using congrArg Option.isSome (findSub_self pat b)
  | cons c a ih =>
    intro b
    rw [List.cons_append, findSub]
    by_cases hp : pat.isPrefixOf (c :: (a ++ (pat ++ b))) = true
    · rw [if_pos hp]; rfl
    · rw [if_neg hp]
      have := ih b
      cases hf : findSub pat (a ++ (pat ++ b)) with
      | none => rw [hf] at this; simp at this
      | some pr => simp [hf]

theorem regexFind_hit (h fh : Char) (ht ft bd rest : List Char)
    (hbd : ∀ c ∈ bd, c ≠ fh) :
    regexFind (h :: ht) (fh :: ft)
        (h :: (ht ++ (bd ++ ((fh :: ft) ++ rest))))
      = some ([], bd, rest) := by
  have hpre : (h :: ht).isPrefixOf
      (h :: (ht ++ (bd ++ ((fh :: ft) ++ rest)))) = true := by
    rw [ List.isPrefixOf_iff_prefix]
    exact List.prefix_append (h :: ht) (bd ++ ((fh :: ft) ++ rest))
  have hfind : findSub (fh :: ft)
      ((h :: (ht ++ (bd ++ ((fh :: ft) ++ rest)))).drop (h :: ht).length)
      = some (bd, rest) := by
    have hdrop : (h :: (ht ++ (bd ++ ((fh :: ft) ++ rest)))).drop (h :: ht).length
        = bd ++ ((fh :: ft) ++ rest) :=
      List.drop_left (h :: ht) (bd ++ ((fh :: ft) ++ rest))
    rw [hdrop, findSub_append_free fh ft bd _ hbd, findSub_self]
    simp
  rw [regexFind, if_pos hpre, hfind]

theorem regexFind_append_no_hdr (h : Char) (ht ftr : List Char) :
    ∀ u v : List Char,
      (∀ q, q < u.length → ¬ (h :: ht) <+: ((u ++ v).drop q)) →
      regexFind (h :: ht) ftr (u ++ v)
        = (regexFind (h :: ht) ftr v).map fun r => (u ++ r.1, r.2) := by
  intro u
  induction u with
  | nil =>
    intro v _
    cases hr : regexFind (h :: ht) ftr v <;> simp [hr]
  | cons c u ih =>
    intro v hq
    have h0 : ¬ (h :: ht) <+: (c :: (u ++ v)) := by
      have h1 := hq 0 (by simp)
      simpa using h1
    have hp : ((h :: ht).isPrefixOf (c :: (u ++ v))) = false := by
      rw [Bool.eq_false_iff]
      intro hcon
      exact h0 (( List.isPrefixOf_iff_prefix).mp hcon)
    simp only [List.cons_append, regexFind, List.append_eq, hp,
      Bool.false_eq_true, if_false]
    rw [ih v ?_]
    · cases hr : regexFind (h :: ht) ftr v <;> simp [hr]
    · intro q hql hcon
      refine hq (q + 1) (by simpa using Nat.succ_lt_succ hql) ?_
      simpa using hcon

theorem regexFind_sound (hdr ftr : List Char) :
    ∀ s pre b post, regexFind hdr ftr s = some (pre, b, post) →
      s = pre ++ (hdr ++ (b ++ (ftr ++ post)))
      ∧ ∀ q, q < pre.length → hdr.isPrefixOf (s.drop q) = true →
          findSub ftr (s.drop (q + hdr.length)) = none := by
  intro s
  induction s with
  | nil => intro pre b post h; rw [regexFind] at h; simp at h
  | cons c s ih =>
    intro pre b post h
    rw [regexFind] at h
    by_cases hp : hdr.isPrefixOf (c :: s) = true
    · rw [if_pos hp] at h
      cases hf : findSub ftr ((c :: s).drop hdr.length) with
      | some pr =>
        rw [hf] at h
        have h1 := congrArg (fun x => Option.map (fun r => r.1) x) h
        have h2 := congrArg (fun x => Option.map (fun r => r.2.1) x) h
        have h3 := congrArg (fun x => Option.map (fun r => r.2.2) x) h
        simp at h1 h2 h3
        subst h1
        subst h2
        subst h3
        constructor
        · have hpre : hdr <+: (c :: s) := ( List.isPrefixOf_iff_prefix).mp hp
          obtain ⟨t, hts⟩ := hpre
          have hdrop : (c :: s).drop hdr.length = t := by
            rw [← hts]  ; exact List.drop_left hdr t
          rw [hdrop] at hf
          have ht2 := findSub_sound ftr t pr.1 pr.2 hf
          rw [← hts, ht2]
          simp
        · intro q hql
          simp at hql
      | none =>
        rw [hf] at h
        cases hr : regexFind hdr ftr s with
        | none => rw [hr] at h; simp at h
        | some r =>
          rw [hr] at h
          simp only [Option.map_some', Option.some.injEq] at h
          have hpre : c :: r.1 = pre := congrArg (fun x => x.1) h
          have hb : r.2.1 = b := congrArg (fun x => x.2.1) h
          have hpost : r.2.2 = post := congrArg (fun x => x.2.2) h
          subst hpre hb hpost
          obtain ⟨hseq, hleft⟩ := ih r.1 r.2.1 r.2.2 (by rw [hr])
          constructor
          · simp [hseq]
          · intro q hql hcon
            cases q with
            | zero =>
              simpa using hf
            | succ q' =>
              have hql' : q' < r.1.length := by simpa using hql
              have hcon' : hdr.isPrefixOf (s.drop q') = true := by
                simpa [List.drop_succ_cons] using hcon
              have hgoal := hleft q' hql' hcon'
              simpa [List.drop_succ_cons, Nat.succ_add] using hgoal
    · rw [if_neg hp] at h
      cases hr : regexFind hdr ftr s with
      | none => rw [hr] at h; simp at h
      | some r =>
        rw [hr] at h
        simp only [Option.map_some', Option.some.injEq] at h
        have hpre : c :: r.1 = pre := congrArg (fun x => x.1) h
        have hb : r.2.1 = b := congrArg (fun x => x.2.1) h
        have hpost : r.2.2 = post := congrArg (fun x => x.2.2) h
        subst hpre hb hpost
        obtain ⟨hseq, hleft⟩ := ih r.1 r.2.1 r.2.2 (by rw [hr])
        constructor
        · simp [hseq]
        · intro q hql hcon
          cases q with
          | zero => exact absurd (by simpa using hcon) hp
          | succ q' =>
            have hql' : q' < r.1.length := by simpa using hql
            have hcon' : hdr.isPrefixOf (s.drop q') = true := by
              simpa [List.drop_succ_cons] using hcon
            have hgoal := hleft q' hql' hcon'
            simpa [List.drop_succ_cons, Nat.succ_add] using hgoal

/-- The markers start with the only `'#'` they contain, so an
occurrence of the header inside `w ++ header ++ Y` that starts
strictly inside `w` must lie entirely inside `w`. -/
theorem hdr_prefix_transport (h : Char) (ht : List Char) (hh : h ∉ ht)
    (w Y : List Char) (hw : w ≠ [])
    (hpre : (h :: ht) <+: (w ++ ((h :: ht) ++ Y))) : (h :: ht) <+: w := by
  obtain ⟨t, ht_eq⟩ := hpre
  by_cases hlen : (h :: ht).length ≤ w.length
  · have htake := congrArg (List.take (h :: ht).length) ht_eq
    rw [List.take_append_eq_append_take, List.take_append_eq_append_take,
      Nat.sub_eq_zero_of_le hlen, Nat.sub_self] at htake
    simp only [List.take_zero, List.append_nil, List.take_length] at htake
    rw [htake]
    exact List.take_prefix _ w
  · exfalso
    have hlt : w.length < (h :: ht).length := Nat.lt_of_not_le hlen
    have hdrop := congrArg (List.drop w.length) ht_eq
    rw [List.drop_append_eq_append_drop, List.drop_append_eq_append_drop] at hdrop
    rw [List.drop_length, Nat.sub_self, List.drop_zero, List.nil_append] at hdrop
    rw [Nat.sub_eq_zero_of_le (Nat.le_of_lt hlt), List.drop_zero] at hdrop
    obtain ⟨k, hk⟩ : ∃ k, w.length = k + 1 := by
      cases hwc : w with
      | nil => exact absurd hwc hw
      | cons a l => exact ⟨l.length, by simp [hwc]⟩
    rw [hk, List.drop_succ_cons] at hdrop
    have hlenk : k < ht.length := by
      have := hlt
      simp [hk] at this
      omega
    have hne : ht.drop k ≠ [] := by
      intro hnil
      have := List.drop_eq_nil_iff.mp hnil
      omega
    obtain ⟨a, l, hal⟩ := List.exists_cons_of_ne_nil hne
    have hhead := congrArg List.head? hdrop
    rw [hal] at hhead
    simp at hhead
    have ha : a = h := hhead
    have hmem : h ∈ ht := by
      have : h ∈ ht.drop k := by rw [hal, ha] at *; exact List.mem_cons_self h l
      exact List.drop_subset k ht this
    exact hh hmem

theorem sectionHeader_eq :
    sectionHeader = '#' :: chars " git-branchless section start\n" := by decide

theorem sectionFooter_eq :
    sectionFooter = '#' :: chars " git-branchless section end\n" := by decide

theorem hash_not_mem_header_tail :
    '#' ∉ chars " git-branchless section start\n" := by decide

theorem includeBody_no_hash (p : List Char) (hp : '#' ∉ p) :
    '#' ∉ includeBody p := by
  have hA : '#' ∉ chars "[include]\n\tpath = \"" := by decide
  have hB : '#' ∉ chars "\"\n\tpath = \"~/.gitconfig\"\n" := by decide
  intro hmem
  rw [includeBody] at hmem
  rcases List.mem_append.mp hmem with h1 | h2
  · rcases List.mem_append.mp h1 with ha | hpp
    · exact hA ha
    · exact hp hpp
  · exact hB h2

/-- The section regex matches a freshly rendered section at the very
front, lazily, with exactly the rendered body. -/
theorem regexFind_section (p rest : List Char) (hp : '#' ∉ p) :
    regexFind sectionHeader sectionFooter
        (section_string (includeBody p) ++ rest)
      = some ([], includeBody p, rest) := by
  have hbd : ∀ c ∈ includeBody p, c ≠ '#' := by
    intro c hc hce
    exact includeBody_no_hash p hp (hce ▸ hc)
  have harg : section_string (includeBody p) ++ rest
      = '#' :: (chars " git-branchless section start\n" ++
          (includeBody p ++
            (('#' :: chars " git-branchless section end\n") ++ rest))) := by
    rw [section_string, sectionHeader_eq, sectionFooter_eq]
    simp [List.append_assoc]
  rw [harg, sectionHeader_eq, sectionFooter_eq]
  exact regexFind_hit '#' '#' (chars " git-branchless section start\n")
    (chars " git-branchless section end\n") (includeBody p) rest hbd

/-- **C5** (amended).  `update_config_text` is a fixed point under
re-application for every whole text `T` and every path `p` containing
neither `'#'` nor `'$'` (the `'#'` bound keeps the rendered include
body free of header/footer fragments; the `'$'` bound keeps the
unmodelled `Regex::replace` `$`-expansion inert).  As stated — for
*every* path — the claim fails: a path containing the footer string
makes the lazy match of the second application stop inside the
just-inserted body, see the counterexample. -/
theorem update_config_text_fixed_point (T p : List Char)
    (hp1 : '#' ∉ p) (_hp2 : '$' ∉ p) :
    update_config_text (update_config_text T p) p = update_config_text T p := by
  cases hm : regexFind sectionHeader sectionFooter T with
  | none =>
    have h1 : update_config_text T p = section_string (includeBody p) ++ T := by
      simp [update_config_text, hm]
    rw [h1]
    simp [update_config_text, regexFind_section p T hp1]
  | some r =>
    obtain ⟨pre, b, post⟩ := r
    have h1 : update_config_text T p
        = pre ++ (section_string (includeBody p) ++ post) := by
      simp [update_config_text, hm, List.append_assoc]
    obtain ⟨hTeq, hleft⟩ :=
      regexFind_sound sectionHeader sectionFooter T pre b post hm
    have hnopre : ∀ q, q < pre.length → ¬ sectionHeader <+: (T.drop q) := by
      intro q hq hcon
      have hptrue : sectionHeader.isPrefixOf (T.drop q) = true :=
        ( List.isPrefixOf_iff_prefix).mpr hcon
      have hnone := hleft q hq hptrue
      have hsome : (findSub sectionFooter
          (T.drop (q + sectionHeader.length))).isSome = true := by
        have hT2 : T = (pre ++ (sectionHeader ++ b)) ++ (sectionFooter ++ post) := by
          rw [hTeq]; simp [List.append_assoc]
        have hle : q + sectionHeader.length ≤ (pre ++ (sectionHeader ++ b)).length := by
          simp only [List.length_append]
          omega
        rw [hT2, List.drop_append_eq_append_drop, Nat.sub_eq_zero_of_le hle,
          List.drop_zero]
        exact findSub_isSome sectionFooter _ post
      rw [hnone] at hsome
      simp at hsome
    have hnoprenew : ∀ q, q < pre.length →
        ¬ sectionHeader <+:
          ((pre ++ (section_string (includeBody p) ++ post)).drop q) := by
      intro q hq hcon
      have hdropq : (pre ++ (section_string (includeBody p) ++ post)).drop q
          = pre.drop q ++ (section_string (includeBody p) ++ post) := by
        rw [List.drop_append_eq_append_drop,
          Nat.sub_eq_zero_of_le (Nat.le_of_lt hq), List.drop_zero]
      rw [hdropq] at hcon
      have hsec : section_string (includeBody p) ++ post
          = sectionHeader ++ (includeBody p ++ (sectionFooter ++ post)) := by
        rw [section_string]; simp [List.append_assoc]
      rw [hsec, sectionHeader_eq] at hcon
      have hwne : pre.drop q ≠ [] := by
        intro hnil
        have hlen := List.drop_eq_nil_iff.mp hnil
        omega
      have hwpre : ('#' :: chars " git-branchless section start\n") <+: pre.drop q :=
        hdr_prefix_transport '#' (chars " git-branchless section start\n")
          hash_not_mem_header_tail (pre.drop q)
          (includeBody p ++ (sectionFooter ++ post)) hwne hcon
      have hwpre2 : sectionHeader <+: pre.drop q := by
        rw [sectionHeader_eq]; exact hwpre
      have hTq : T.drop q
          = pre.drop q ++ (sectionHeader ++ (b ++ (sectionFooter ++ post))) := by
        rw [hTeq, List.drop_append_eq_append_drop,
          Nat.sub_eq_zero_of_le (Nat.le_of_lt hq), List.drop_zero]
      refine hnopre q hq ?_
      rw [hTq]
      exact hwpre2.trans (List.prefix_append _ _)
    have h2 : regexFind sectionHeader sectionFooter
        (pre ++ (section_string (includeBody p) ++ post))
        = some (pre, includeBody p, post) := by
      have hnopre2 : ∀ q, q < pre.length →
          ¬ ('#' :: chars " git-branchless section start\n") <+:
            ((pre ++ (section_string (includeBody p) ++ post)).drop q) := by
        intro q hq hcon
        refine hnoprenew q hq ?_
        rw [sectionHeader_eq]
        exact hcon
      rw [sectionHeader_eq,
        regexFind_append_no_hdr '#' (chars " git-branchless section start\n")
          sectionFooter pre (section_string (includeBody p) ++ post) hnopre2,
        ← sectionHeader_eq, regexFind_section p post hp1]
      simp
    rw [h1]
    simp [update_config_text, h2, List.append_assoc]

/-- Witness for C5: the repository's own `test_config_text_update`
path `"branchless/config"` contains neither `'#'` nor `'$'`, and
re-running `update_config_text` on its own output is a no-op. -/
theorem update_config_text_fixed_point_witness :
    '#' ∉ chars "branchless/config"
    ∧ '$' ∉ chars "branchless/config"
    ∧ update_config_text
        (update_config_text (chars "[blahblah]\n\tkey = \"value\"\n")
          (chars "branchless/config"))
        (chars "branchless/config")
      = update_config_text (chars "[blahblah]\n\tkey = \"value\"\n")
          (chars "branchless/config") :=
  ⟨by decide, by decide,
    update_config_text_fixed_point _ _ (by decide) (by decide)⟩

set_option maxRecDepth 4000 in
/-- Counterexample to C5 as stated (for *every* relative config path):
a path containing the footer string breaks the fixed point, because
the second application's lazy match ends at the footer text embedded
in the just-inserted include body. -/
theorem update_config_text_not_fixed_point :
    update_config_text
        (update_config_text [] (chars "x\n# git-branchless section end\nq"))
        (chars "x\n# git-branchless section end\nq")
      ≠ update_config_text [] (chars "x\n# git-branchless section end\nq") := by
  decide

end Branchless
